import Mathlib

/-!
Shallow embedding of `src/main.cpp` (mergelists-cpp): a tool that merges
several JSON lists of records keyed by an integer `num`, keeps for each key
the record with the greatest `timestamp`, and prints the winners sorted by
`timestamp`.

Modelling choices:
* `uint64_t` timestamps are modelled as `Nat` (only comparisons occur, never
  arithmetic, so no wraparound is observable); `int num` is modelled as `Int`.
* `std::unordered_map<int, const Entry *> buckets` is modelled as an
  association list `List (Int × Entry)`; `emplace` appends a fresh pair,
  `it->second = &entry` replaces the payload of the unique pair with that key.
  The C++ map's pointers to caller-owned entries are modelled as the entry
  values themselves.
* `std::sort` with comparator `*lhs < *rhs` (i.e. strict `<` on `timestamp`)
  guarantees exactly that adjacent output elements `a, b` satisfy
  `¬ b < a`, i.e. `a.timestamp ≤ b.timestamp`, and that the output is a
  permutation of the input; which permutation is produced among ties is
  unspecified in C++ (as is the `unordered_map` iteration order), so `build`
  is modelled with `List.insertionSort` by `timestamp ≤`, which has the same
  specification.
* nlohmann JSON values are modelled by a small inductive covering exactly the
  shapes the parser distinguishes: the root is an array or not; an element is
  an object or not; an object carries the four optional fields the code ever
  reads (with the types the code extracts them at).
-/

/-- `struct Entry` of main.cpp: `created`, `deleted` and `timestamp` are
zero-initialized as in the C++ member initializers; `num` is set by parsing. -/
structure Entry where
  title : String
  created : Nat := 0
  deleted : Nat := 0
  timestamp : Nat := 0
  num : Int
deriving DecidableEq

/-- `Entry::operator<`: comparison by the precomputed `timestamp` field. -/
def Entry.lt (a b : Entry) : Prop :=
  a.timestamp < b.timestamp

instance : DecidableRel Entry.lt := fun a b => Nat.decLt a.timestamp b.timestamp

/-- The guarantee `std::sort` with strict comparator `Entry.lt` gives about
adjacent elements: `¬ b.lt a`, i.e. `a.timestamp ≤ b.timestamp`. -/
def tsLe (a b : Entry) : Prop :=
  a.timestamp ≤ b.timestamp

instance : DecidableRel tsLe := fun a b => Nat.decLe a.timestamp b.timestamp

instance : IsTotal Entry tsLe := ⟨fun a b => Nat.le_total a.timestamp b.timestamp⟩

instance : IsTrans Entry tsLe := ⟨fun _ _ _ h h2 => Nat.le_trans h h2⟩

/-- The `buckets` member of `MergeBuilder`: an association from `num` keys to
the current winning entry for that key. -/
abbrev Buckets := List (Int × Entry)

/-- `buckets.find( num )`: the current winner for a key, if any. -/
def findBucket : Buckets → Int → Option Entry
  | [], _ => none
  | p :: rest, num => if p.1 = num then some p.2 else findBucket rest num

/-- The loop body of `MergeBuilder::addEntries` for one entry: insert when the
key is unseen; otherwise overwrite the existing winner exactly when
`existing < entry` holds (strict comparison of timestamps). -/
def addEntry (buckets : Buckets) (entry : Entry) : Buckets :=
  match findBucket buckets entry.num with
  | none => buckets ++ [(entry.num, entry)]
  | some existing =>
    if existing.timestamp < entry.timestamp then
      buckets.map (fun p => if p.1 = entry.num then (entry.num, entry) else p)
    else
      buckets

/-- The effect of one `addEntries` loop iteration on the winner of a single
key, viewed in isolation (derived from the branches of `addEntry`): a first
record is installed, and a later record displaces the winner exactly when its
timestamp is strictly greater. -/
def pickWinner (cur : Option Entry) (entry : Entry) : Option Entry :=
  match cur with
  | none => some entry
  | some existing =>
    if existing.timestamp < entry.timestamp then some entry else some existing

/-- Invariant of the bucket map: every stored pair maps a key to an entry
bearing that key, and no key occurs twice. -/
def WFB (b : Buckets) : Prop :=
  (∀ p ∈ b, (Prod.snd p).num = p.1) ∧ (b.map Prod.fst).Nodup

/-- `MergeBuilder::addEntries`: fold the loop body over the supplied batch. -/
def addEntries (buckets : Buckets) (entries : List Entry) : Buckets :=
  entries.foldl addEntry buckets

/-- `MergeBuilder::build`: collect all current winners and sort them with the
comparator derived from `Entry::operator<` (see module comment on `std::sort`). -/
def build (buckets : Buckets) : List Entry :=
  List.insertionSort tsLe (buckets.map Prod.snd)

/-- `MergeBuilder::build` as a state transformer: the method reads `buckets`
but never writes to it, so the post-state equals the pre-state. -/
def buildOp (buckets : Buckets) : List Entry × Buckets :=
  (build buckets, buckets)

/-- A freshly constructed `MergeBuilder` has an empty bucket map. -/
def initBuckets : Buckets := []

/-- The accumulated state after feeding a sequence of batches to
`addEntries`, starting from a fresh `MergeBuilder`. -/
def stateOf (batches : List (List Entry)) : Buckets :=
  batches.foldl addEntries initBuckets

/-- A JSON object as far as the parser looks at it: the four fields read by
`tryParsingEntries`, each present or absent, carrying the type the code
extracts it at. -/
structure JObj where
  num : Option Int
  title : Option String
  created : Option Nat
  deleted : Option Nat
deriving DecidableEq

/-- An element of the root JSON array: an object, or anything else (which the
parser rejects wholesale). -/
inductive JVal where
  | obj (o : JObj)
  | nonObject
deriving DecidableEq

/-- A root JSON document: an array of elements, or anything else. -/
inductive JRoot where
  | arr (elems : List JVal)
  | nonArray
deriving DecidableEq

/-- The per-element body of the loop in `tryParsingEntries`: require `num` and
`title`, reject both/neither of `created`/`deleted`, derive `timestamp` from
whichever of the two is present. Error strings are those of the C++ code. -/
def parseEntry (elem : JVal) : Except String Entry :=
  match elem with
  | .nonObject => .error "An element of a root JSON array is not an object"
  | .obj o =>
    match o.num with
    | none => .error "Failed to get field `num` of an entry"
    | some num =>
      match o.title with
      | none => .error "Failed to get field `title` of an entry"
      | some title =>
        match o.created, o.deleted with
        | some _, some _ => .error "Both `created` and `deleted` fields are present"
        | none, none => .error "Both `created` and `deleted` fields are absent"
        | some c, none =>
          .ok { title := title, created := c, deleted := 0, timestamp := c, num := num }
        | none, some d =>
          .ok { title := title, created := 0, deleted := d, timestamp := d, num := num }

/-- The loop of `tryParsingEntries` accumulating into the local `result`
vector: stops at the first failing element. -/
def parseElems : List JVal → Except String (List Entry)
  | [] => .ok []
  | elem :: rest =>
    match parseEntry elem with
    | .error e => .error e
    | .ok entry =>
      match parseElems rest with
      | .error e => .error e
      | .ok entries => .ok (entry :: entries)

/-- `tryParsingEntries( root, output, error )`: returns the success flag (with
the error message in the failure case) together with the final content of the
`output` vector. The C++ code touches `output` only after the loop completed
(`output.clear(); std::swap( result, output )`), so on failure `output` keeps
its prior content. -/
def tryParsingEntries (root : JRoot) (output : List Entry) :
    Except String Unit × List Entry :=
  match root with
  | .nonArray => (.error "The root JSON object is not an array", output)
  | .arr elems =>
    match parseElems elems with
    | .error e => (.error e, output)
    | .ok result => (.ok (), result)

/-- The file-reading loop of `main`: each source is parsed into a fresh vector
(`std::vector<Entry> content`), aborting the run at the first failure. File
contents are modelled directly as their parsed JSON documents. -/
def loadAll : List JRoot → Except String (List (List Entry))
  | [] => .ok []
  | root :: rest =>
    match tryParsingEntries root [] with
    | (.error e, _) => .error e
    | (.ok _, content) =>
      match loadAll rest with
      | .error e => .error e
      | .ok lists => .ok (content :: lists)

/-- One rendered JSON object of `printEntries`: `num` and `title` always,
`created`/`deleted` present or omitted. -/
structure JOut where
  num : Int
  title : String
  created : Option Nat
  deleted : Option Nat
deriving DecidableEq

/-- The per-entry body of `printEntries`: `obj[FIELD_CREATED]` is assigned
only under `if( entry->created )`, i.e. when the field is nonzero, and
likewise for `deleted`. -/
def printEntry (entry : Entry) : JOut :=
  { num := entry.num
    title := entry.title
    created := if entry.created ≠ 0 then some entry.created else none
    deleted := if entry.deleted ≠ 0 then some entry.deleted else none }

/-- `printEntries`: renders the entries in the order given. -/
def printEntries (entries : List Entry) : List JOut :=
  entries.map printEntry

/-- The usage string printed by `main` when fewer than two filenames are given. -/
def usageMessage : String :=
  "Usage: mergelists-cpp <filename1> <filename2> ..."

/-- Observable outcome of a `main` run: the exit status, what (if anything)
was printed to stdout, and what (if anything) was printed to stderr. -/
structure MainOutcome where
  exitCode : Nat
  stdoutJson : Option (List JOut)
  stderrMsg : Option String
deriving DecidableEq

/-- `main`: with fewer than two file arguments (`argc < 3`) print the usage
message to stderr and exit 1; otherwise read all files (aborting with exit 1
on the first load failure), feed every batch to one `MergeBuilder`, and print
the built result to stdout with exit 0. -/
def runMain (files : List JRoot) : MainOutcome :=
  if files.length < 2 then
    { exitCode := 1, stdoutJson := none, stderrMsg := some usageMessage }
  else
    match loadAll files with
    | .error e =>
      { exitCode := 1, stdoutJson := none
        stderrMsg := some ("Failed to read a file content: " ++ e) }
    | .ok lists =>
      { exitCode := 0
        stdoutJson := some (printEntries (build (lists.foldl addEntries initBuckets)))
        stderrMsg := none }

example :
    runMain [JRoot.arr [JVal.obj ⟨some 1, some "a", some 10, none⟩],
             JRoot.arr [JVal.obj ⟨some 1, some "a2", none, some 20⟩,
                        JVal.obj ⟨some 2, some "b", some 5, none⟩]] =
      { exitCode := 0
        stdoutJson := some
          [{ num := 2, title := "b", created := some 5, deleted := none },
           { num := 1, title := "a2", created := none, deleted := some 20 }]
        stderrMsg := none } := by
  decide

/-! ### Basic lemmas about the bucket map -/

theorem findBucket_eq_none_iff (b : Buckets) (k : Int) :
    findBucket b k = none ↔ ∀ p ∈ b, p.1 ≠ k := by
  induction b with
  | nil => simp [findBucket]
  | cons hd tl ih =>
    by_cases hh : hd.1 = k
    · simp [findBucket, hh]
    · simp [findBucket, hh, ih]

theorem findBucket_append_one (b : Buckets) (n : Int) (e : Entry) (k : Int) :
    findBucket (b ++ [(n, e)]) k =
      match findBucket b k with
      | some ex => some ex
      | none => if n = k then some e else none := by
  induction b with
  | nil => simp [findBucket]
  | cons hd tl ih =>
    by_cases hh : hd.1 = k
    · simp [findBucket, hh]
    · simpa [findBucket, hh] using ih

theorem findBucket_mapReplace (b : Buckets) (e : Entry) (k : Int) :
    findBucket (b.map (fun p => if p.1 = e.num then (e.num, e) else p)) k =
      if k = e.num then (findBucket b e.num).map (fun _ => e)
      else findBucket b k := by
  by_cases hk : k = e.num
  · subst hk
    rw [if_pos rfl]
    induction b with
    | nil => simp [findBucket]
    | cons hd tl ih =>
      rw [List.map_cons]
      by_cases hh : hd.1 = e.num
      · simp [findBucket, hh]
      · simp [findBucket, hh, ih]
  · have hnk : e.num ≠ k := Ne.symm hk
    rw [if_neg hk]
    induction b with
    | nil => simp [findBucket]
    | cons hd tl ih =>
      rw [List.map_cons]
      by_cases hh : hd.1 = e.num
      · simp [findBucket, hh, hnk, ih]
      · simp [findBucket, hh, ih]

theorem findBucket_addEntry (b : Buckets) (e : Entry) (k : Int) :
    findBucket (addEntry b e) k =
      if k = e.num then pickWinner (findBucket b k) e
      else findBucket b k := by
  unfold addEntry
  cases hb : findBucket b e.num with
  | none =>
    dsimp only
    rw [findBucket_append_one]
    by_cases hk : k = e.num
    · subst hk
      rw [hb, if_pos rfl, if_pos rfl]
      rfl
    · rw [if_neg hk]
      cases hfk : findBucket b k with
      | none => simp [Ne.symm hk]
      | some ex => rfl
  | some ex =>
    dsimp only
    by_cases hlt : ex.timestamp < e.timestamp
    · rw [if_pos hlt, findBucket_mapReplace]
      by_cases hk : k = e.num
      · rw [if_pos hk, if_pos hk, hk, hb]
        simp [pickWinner, hlt]
      · rw [if_neg hk, if_neg hk]
    · rw [if_neg hlt]
      by_cases hk : k = e.num
      · rw [if_pos hk, hk, hb]
        simp [pickWinner, hlt]
      · rw [if_neg hk]

theorem findBucket_foldl_addEntry (es : List Entry) (b : Buckets) (k : Int) :
    findBucket (es.foldl addEntry b) k =
      (es.filter (fun e => e.num == k)).foldl pickWinner (findBucket b k) := by
  induction es generalizing b with
  | nil => rfl
  | cons e es ih =>
    rw [List.foldl_cons, ih, findBucket_addEntry]
    by_cases hk : k = e.num
    · subst hk
      simp [List.filter_cons]
    · have hnk : e.num ≠ k := Ne.symm hk
      simp [if_neg hk, List.filter_cons, hnk]

theorem foldl_addEntries_flatten (batches : List (List Entry)) (b : Buckets) :
    batches.foldl addEntries b = batches.flatten.foldl addEntry b := by
  induction batches generalizing b with
  | nil => rfl
  | cons l ls ih => rw [List.foldl_cons, ih, List.flatten_cons, List.foldl_append]; rfl

theorem findBucket_stateOf (batches : List (List Entry)) (k : Int) :
    findBucket (stateOf batches) k =
      (batches.flatten.filter (fun e => e.num == k)).foldl pickWinner none := by
  rw [stateOf, foldl_addEntries_flatten, findBucket_foldl_addEntry]
  rfl

/-! ### The bucket-map invariant -/

theorem WFB_addEntry {b : Buckets} (e : Entry) (h : WFB b) : WFB (addEntry b e) := by
  obtain ⟨h1, h2⟩ := h
  unfold addEntry
  cases hb : findBucket b e.num with
  | none =>
    dsimp only
    constructor
    · intro p hp
      rcases List.mem_append.1 hp with hp | hp
      · exact h1 p hp
      · rcases List.mem_singleton.1 hp with rfl
        rfl
    · rw [List.map_append, List.nodup_append]
      refine ⟨h2, List.nodup_singleton _, ?_⟩
      intro a ha ha'
      rcases List.mem_map.1 ha with ⟨p, hp, rfl⟩
      rcases List.mem_singleton.1 ha' with h
      exact ((findBucket_eq_none_iff b e.num).1 hb p hp) (by simpa using h)
  | some ex =>
    dsimp only
    by_cases hlt : ex.timestamp < e.timestamp
    · rw [if_pos hlt]
      constructor
      · intro p hp
        rcases List.mem_map.1 hp with ⟨q, hq, rfl⟩
        by_cases hqe : q.1 = e.num
        · simp [hqe]
        · simpa [hqe] using h1 q hq
      · have : (b.map (fun p => if p.1 = e.num then (e.num, e) else p)).map Prod.fst =
            b.map Prod.fst := by
          rw [List.map_map]
          refine List.map_congr_left ?_
          intro p _
          by_cases hqe : p.1 = e.num
          · simp [hqe]
          · simp [hqe]
        rw [this]
        exact h2
    · rw [if_neg hlt]
      exact ⟨h1, h2⟩

theorem WFB_foldl {b : Buckets} (es : List Entry) (h : WFB b) :
    WFB (es.foldl addEntry b) := by
  induction es generalizing b with
  | nil => exact h
  | cons e es ih => exact ih (WFB_addEntry e h)

theorem WFB_stateOf (batches : List (List Entry)) : WFB (stateOf batches) := by
  rw [stateOf, foldl_addEntries_flatten]
  exact WFB_foldl _ ⟨by simp [initBuckets], by simp [initBuckets]⟩

/-! ### Characterisation of the per-key winner fold -/

theorem pickWinner_spec (cur : Option Entry) (e x : Entry)
    (h : pickWinner cur e = some x) :
    e.timestamp ≤ x.timestamp ∧ (∀ c, cur = some c → c.timestamp ≤ x.timestamp) ∧
      (x = e ∨ cur = some x) := by
  cases cur with
  | none =>
    rw [pickWinner] at h
    cases h
    exact ⟨Nat.le_refl _, (by intro c hc; cases hc), Or.inl rfl⟩
  | some ex =>
    rw [pickWinner] at h
    by_cases hlt : ex.timestamp < e.timestamp
    · rw [if_pos hlt] at h
      cases h
      exact ⟨Nat.le_refl _, by rintro c ⟨rfl⟩; exact Nat.le_of_lt hlt, Or.inl rfl⟩
    · rw [if_neg hlt] at h
      cases h
      exact ⟨Nat.le_of_not_lt hlt, by rintro c ⟨rfl⟩; exact Nat.le_refl _, Or.inr rfl⟩

theorem foldl_pickWinner_isSome (l : List Entry) (w : Entry) :
    (l.foldl pickWinner (some w)).isSome := by
  induction l generalizing w with
  | nil => rfl
  | cons e l ih =>
    rw [List.foldl_cons, pickWinner]
    by_cases hlt : w.timestamp < e.timestamp
    · rw [if_pos hlt]; exact ih e
    · rw [if_neg hlt]; exact ih w

theorem foldl_pickWinner_none_iff (l : List Entry) :
    l.foldl pickWinner none = none ↔ l = [] := by
  cases l with
  | nil => simp
  | cons e l =>
    simp only [List.foldl_cons]
    rw [show pickWinner none e = some e from rfl]
    constructor
    · intro h
      have := foldl_pickWinner_isSome l e
      rw [h] at this
      cases this
    · intro h
      cases h

theorem foldl_pickWinner_max (l : List Entry) (cur : Option Entry) (w : Entry)
    (h : l.foldl pickWinner cur = some w) :
    (w ∈ l ∨ cur = some w) ∧
    (∀ e ∈ l, e.timestamp ≤ w.timestamp) ∧
    (∀ x, cur = some x → x.timestamp ≤ w.timestamp) := by
  induction l generalizing cur with
  | nil =>
    refine ⟨Or.inr h, by simp, ?_⟩
    rintro x hx
    rw [hx] at h
    cases h
    exact Nat.le_refl _
  | cons e l ih =>
    rw [List.foldl_cons] at h
    cases hp : pickWinner cur e with
    | none => cases cur with
      | none => rw [pickWinner] at hp; cases hp
      | some ex =>
        rw [pickWinner] at hp
        by_cases hlt : ex.timestamp < e.timestamp
        · rw [if_pos hlt] at hp; cases hp
        · rw [if_neg hlt] at hp; cases hp
    | some y =>
      rw [hp] at h
      obtain ⟨hle, hcur, hor⟩ := pickWinner_spec cur e y hp
      obtain ⟨ihmem, ihall, ihcur⟩ := ih (some y) h
      have hyle : y.timestamp ≤ w.timestamp := ihcur y rfl
      constructor
      · rcases ihmem with hw | hw
        · exact Or.inl (List.mem_cons_of_mem _ hw)
        · cases hw
          rcases hor with rfl | hc
          · exact Or.inl (List.mem_cons_self _ _)
          · exact Or.inr hc
      constructor
      · intro e' he'
        rcases List.mem_cons.1 he' with rfl | he'
        · exact Nat.le_trans hle hyle
        · exact ihall e' he'
      · rintro x hx
        exact Nat.le_trans (hcur x hx) hyle

/-! ### Buckets, membership and filtering by key -/

theorem findBucket_some_mem (b : Buckets) (k : Int) (w : Entry)
    (h : findBucket b k = some w) : (k, w) ∈ b := by
  induction b with
  | nil => cases h
  | cons hd tl ih =>
    rw [findBucket] at h
    by_cases hh : hd.1 = k
    · rw [if_pos hh] at h
      cases h
      subst hh
      simp
    · rw [if_neg hh] at h
      exact List.mem_cons_of_mem _ (ih h)

theorem findBucket_eq_some_of_mem (b : Buckets) (k : Int) (w : Entry)
    (hn : (b.map Prod.fst).Nodup) (hm : (k, w) ∈ b) :
    findBucket b k = some w := by
  induction b with
  | nil => cases hm
  | cons hd tl ih =>
    rcases List.mem_cons.1 hm with rfl | hm'
    · simp [findBucket]
    · rw [findBucket]
      by_cases hh : hd.1 = k
      · exfalso
        have : hd.1 ∈ tl.map Prod.fst := by
          rw [hh]
          exact List.mem_map.2 ⟨(k, w), hm', rfl⟩
        exact (List.nodup_cons.1 (by simpa using hn)).1 this
      · rw [if_neg hh]
        exact ih (List.nodup_cons.1 (by simpa using hn)).2 hm'

theorem filter_key_of_findBucket_some (b : Buckets) (k : Int) (w : Entry)
    (hn : (b.map Prod.fst).Nodup) (h : findBucket b k = some w) :
    b.filter (fun p => p.1 == k) = [(k, w)] := by
  induction b with
  | nil => cases h
  | cons hd tl ih =>
    rw [findBucket] at h
    by_cases hh : hd.1 = k
    · rw [if_pos hh] at h
      cases h
      subst hh
      have hnin : hd.1 ∉ tl.map Prod.fst := (List.nodup_cons.1 (by simpa using hn)).1
      have hf : tl.filter (fun p => p.1 == hd.1) = [] := by
        rw [List.filter_eq_nil_iff]
        intro p hp hpk
        exact hnin (List.mem_map.2 ⟨p, hp, by simpa using hpk⟩)
      simp [List.filter_cons, hf]
    · rw [if_neg hh] at h
      rw [List.filter_cons, if_neg (by simpa using hh)]
      exact ih (List.nodup_cons.1 (by simpa using hn)).2 h

theorem map_snd_filter_key (b : Buckets) (k : Int)
    (hwf : ∀ p ∈ b, (Prod.snd p).num = p.1) :
    (b.map Prod.snd).filter (fun e => e.num == k) =
      (b.filter (fun p => p.1 == k)).map Prod.snd := by
  induction b with
  | nil => rfl
  | cons hd tl ih =>
    have hh : hd.2.num = hd.1 := hwf hd (List.mem_cons_self _ _)
    rw [List.map_cons, List.filter_cons, List.filter_cons]
    by_cases hk : hd.1 = k
    · rw [if_pos (by simp [hh, hk]), if_pos (by simp [hk]), List.map_cons,
        ih (fun p hp => hwf p (List.mem_cons_of_mem _ hp))]
    · rw [if_neg (by simp [hh, hk]), if_neg (by simp [hk])]
      exact ih (fun p hp => hwf p (List.mem_cons_of_mem _ hp))

theorem build_filter_key (b : Buckets) (k : Int) (w : Entry) (hwf : WFB b)
    (h : findBucket b k = some w) :
    (build b).filter (fun e => e.num == k) = [w] := by
  have hperm : List.Perm ((build b).filter (fun e => e.num == k))
      ((b.map Prod.snd).filter (fun e => e.num == k)) :=
    (List.perm_insertionSort tsLe _).filter _
  rw [map_snd_filter_key b k hwf.1, filter_key_of_findBucket_some b k w hwf.2 h] at hperm
  exact List.perm_singleton.1 (by simpa using hperm)

theorem mem_build_iff (b : Buckets) (e : Entry) :
    e ∈ build b ↔ ∃ p ∈ b, Prod.snd p = e := by
  rw [build, List.mem_insertionSort]
  constructor
  · intro h
    rcases List.mem_map.1 h with ⟨p, hp, rfl⟩
    exact ⟨p, hp, rfl⟩
  · rintro ⟨p, hp, rfl⟩
    exact List.mem_map.2 ⟨p, hp, rfl⟩

/-! ### Claim theorems -/

/-- C1: Last-write-wins. For two records with the same key and orderingKeys
`t1 < t2`, fed to the merge engine in either order (across any number and
split of `addEntries` calls), the record with `t2` is the sole surviving
winner for that key, both in the accumulated state and in `build()`'s
output. -/
theorem lastWriteWins (batches : List (List Entry)) (k : Int) (r1 r2 : Entry)
    (_h1 : r1.num = k) (_h2 : r2.num = k) (hlt : r1.timestamp < r2.timestamp)
    (hf : batches.flatten.filter (fun e => e.num == k) = [r1, r2] ∨
          batches.flatten.filter (fun e => e.num == k) = [r2, r1]) :
    findBucket (stateOf batches) k = some r2 ∧
    (build (stateOf batches)).filter (fun e => e.num == k) = [r2] := by
  have hw : findBucket (stateOf batches) k = some r2 := by
    rw [findBucket_stateOf]
    rcases hf with hf | hf
    · rw [hf]
      simp [pickWinner, hlt]
    · rw [hf]
      simp [pickWinner, Nat.lt_asymm hlt]
  exact ⟨hw, build_filter_key _ _ _ (WFB_stateOf batches) hw⟩

theorem lastWriteWins_witness :
    findBucket (stateOf [[(⟨"a", 10, 0, 10, 1⟩ : Entry)],
                         [(⟨"b", 20, 0, 20, 1⟩ : Entry)]]) 1 =
      some (⟨"b", 20, 0, 20, 1⟩ : Entry) ∧
    (build (stateOf [[(⟨"a", 10, 0, 10, 1⟩ : Entry)],
                     [(⟨"b", 20, 0, 20, 1⟩ : Entry)]])).filter
        (fun e => e.num == 1) = [(⟨"b", 20, 0, 20, 1⟩ : Entry)] :=
  lastWriteWins [[⟨"a", 10, 0, 10, 1⟩], [⟨"b", 20, 0, 20, 1⟩]] 1
    ⟨"a", 10, 0, 10, 1⟩ ⟨"b", 20, 0, 20, 1⟩ rfl rfl (by decide) (Or.inl (by decide))

/-- C2: Tie policy. A newly added record replaces the current winner only if
its orderingKey is strictly greater (equal-or-lesser leaves the whole state
untouched), and merging a record with itself any number of times yields
exactly that one survivor. -/
theorem tiePolicy :
    (∀ (b : Buckets) (e ex : Entry), findBucket b e.num = some ex →
      ¬ ex.timestamp < e.timestamp → addEntry b e = b) ∧
    (∀ (b : Buckets) (e ex : Entry), findBucket b e.num = some ex →
      ex.timestamp < e.timestamp → findBucket (addEntry b e) e.num = some e) ∧
    (∀ (e : Entry) (n : Nat), stateOf [List.replicate (n + 1) e] = [(e.num, e)]) := by
  refine ⟨?_, ?_, ?_⟩
  · intro b e ex hf hn
    unfold addEntry
    rw [hf]
    dsimp only
    rw [if_neg hn]
  · intro b e ex hf hl
    rw [findBucket_addEntry, if_pos rfl, hf, pickWinner, if_pos hl]
  · intro e n
    have key : ∀ m, List.foldl addEntry [(e.num, e)] (List.replicate m e) = [(e.num, e)] := by
      intro m
      induction m with
      | zero => rfl
      | succ m ih =>
        rw [List.replicate_succ, List.foldl_cons]
        have hstep : addEntry [(e.num, e)] e = [(e.num, e)] := by
          unfold addEntry
          rw [show findBucket [(e.num, e)] e.num = some e from by simp [findBucket]]
          dsimp only
          rw [if_neg (Nat.lt_irrefl _)]
        rw [hstep, ih]
    show List.foldl addEntry initBuckets (List.replicate (n + 1) e) = [(e.num, e)]
    rw [List.replicate_succ, List.foldl_cons]
    exact key n

theorem tiePolicy_witness :
    addEntry [((1 : Int), (⟨"first", 7, 0, 7, 1⟩ : Entry))] ⟨"second", 7, 0, 7, 1⟩ =
      [((1 : Int), (⟨"first", 7, 0, 7, 1⟩ : Entry))] ∧
    findBucket (addEntry [((1 : Int), (⟨"first", 7, 0, 7, 1⟩ : Entry))]
        ⟨"newer", 9, 0, 9, 1⟩) 1 = some (⟨"newer", 9, 0, 9, 1⟩ : Entry) ∧
    stateOf [List.replicate (2 + 1) (⟨"first", 7, 0, 7, 1⟩ : Entry)] =
      [((1 : Int), (⟨"first", 7, 0, 7, 1⟩ : Entry))] :=
  ⟨tiePolicy.1 [((1 : Int), ⟨"first", 7, 0, 7, 1⟩)] ⟨"second", 7, 0, 7, 1⟩
      ⟨"first", 7, 0, 7, 1⟩ (by decide) (by decide),
   tiePolicy.2.1 [((1 : Int), ⟨"first", 7, 0, 7, 1⟩)] ⟨"newer", 9, 0, 9, 1⟩
      ⟨"first", 7, 0, 7, 1⟩ (by decide) (by decide),
   tiePolicy.2.2 ⟨"first", 7, 0, 7, 1⟩ 2⟩

/-- C3: Sort correctness of `build()`. The output is exactly the current
winners (a permutation of the bucket map's values), and every adjacent pair
is ordered by `timestamp ≤`. -/
theorem buildSortCorrect (b : Buckets) :
    List.Perm (build b) (b.map Prod.snd) ∧
    (build b).Chain' (fun x y => x.timestamp ≤ y.timestamp) := by
  refine ⟨List.perm_insertionSort tsLe _, ?_⟩
  have hs : List.Sorted tsLe (build b) := List.sorted_insertionSort tsLe _
  exact List.Pairwise.chain' hs

/-- C8: `build()` is a pure read: it leaves the accumulated bucket map
unchanged, and a second consecutive call returns the same result. -/
theorem buildPureRead (b : Buckets) :
    (buildOp b).2 = b ∧ (buildOp ((buildOp b).2)).1 = (buildOp b).1 :=
  ⟨rfl, rfl⟩

/-- C6: Union of keys. After any sequence of `addEntries` calls, the keys in
`build()`'s output are exactly the keys of all records in all added batches,
each appearing once (one winner per key). -/
theorem unionOfKeys (batches : List (List Entry)) :
    (∀ k : Int, (∃ e ∈ build (stateOf batches), e.num = k) ↔
      (∃ e ∈ batches.flatten, e.num = k)) ∧
    ((build (stateOf batches)).map (fun e => e.num)).Nodup := by
  constructor
  · intro k
    constructor
    · rintro ⟨e, he, rfl⟩
      rcases (mem_build_iff _ _).1 he with ⟨p, hp, rfl⟩
      have hinv : p.2.num = p.1 := (WFB_stateOf batches).1 p hp
      have hfb : findBucket (stateOf batches) p.1 = some p.2 :=
        findBucket_eq_some_of_mem _ _ _ (WFB_stateOf batches).2 hp
      rw [findBucket_stateOf] at hfb
      obtain ⟨hmem, -, -⟩ := foldl_pickWinner_max _ _ _ hfb
      rcases hmem with hmem | hmem
      · rcases List.mem_filter.1 hmem with ⟨hfl, hk⟩
        exact ⟨p.2, hfl, by rfl⟩
      · cases hmem
    · rintro ⟨e, he, hk⟩
      subst hk
      have hmem : e ∈ batches.flatten.filter (fun x => x.num == e.num) :=
        List.mem_filter.2 ⟨he, by simp⟩
      cases hfb : findBucket (stateOf batches) e.num with
      | none =>
        rw [findBucket_stateOf, foldl_pickWinner_none_iff] at hfb
        rw [hfb] at hmem
        cases hmem
      | some w =>
        refine ⟨w, (mem_build_iff _ _).2
          ⟨(e.num, w), findBucket_some_mem _ _ _ hfb, rfl⟩, ?_⟩
        exact (WFB_stateOf batches).1 _ (findBucket_some_mem _ _ _ hfb)
  · have hperm : List.Perm ((build (stateOf batches)).map (fun e => e.num))
        (((stateOf batches).map Prod.snd).map (fun e => e.num)) :=
      (List.perm_insertionSort tsLe _).map _
    have hkeys : ((stateOf batches).map Prod.snd).map (fun e => e.num) =
        (stateOf batches).map Prod.fst := by
      rw [List.map_map]
      exact List.map_congr_left (fun p hp => (WFB_stateOf batches).1 p hp)
    rw [hkeys] at hperm
    exact hperm.nodup_iff.2 (WFB_stateOf batches).2

/-- C7: Batch-order independence. If no two distinct records sharing a key
have equal orderingKeys, then permuting the batches fed to `addEntries`
leaves the winner of every key unchanged, and `build()`'s output is the same
up to reordering. -/
theorem batchOrderIndependence (batches batches' : List (List Entry))
    (hperm : List.Perm batches batches')
    (hnt : ∀ e ∈ batches.flatten, ∀ e' ∈ batches.flatten,
      e.num = e'.num → e ≠ e' → e.timestamp ≠ e'.timestamp) :
    (∀ k, findBucket (stateOf batches) k = findBucket (stateOf batches') k) ∧
    List.Perm (build (stateOf batches)) (build (stateOf batches')) := by
  have hflat : List.Perm batches.flatten batches'.flatten := hperm.flatten
  have hfind : ∀ k, findBucket (stateOf batches) k = findBucket (stateOf batches') k := by
    intro k
    rw [findBucket_stateOf, findBucket_stateOf]
    have hc : List.Perm (batches.flatten.filter (fun e => e.num == k))
        (batches'.flatten.filter (fun e => e.num == k)) := hflat.filter _
    cases h1 : (batches.flatten.filter (fun e => e.num == k)).foldl pickWinner none with
    | none =>
      rw [foldl_pickWinner_none_iff] at h1
      rw [h1] at hc
      rw [hc.symm.eq_nil]
      rfl
    | some w =>
      cases h2 : (batches'.flatten.filter (fun e => e.num == k)).foldl pickWinner none with
      | none =>
        rw [foldl_pickWinner_none_iff] at h2
        rw [h2] at hc
        rw [hc.eq_nil] at h1
        cases h1
      | some w' =>
        obtain ⟨hm1, hall1, -⟩ := foldl_pickWinner_max _ _ _ h1
        obtain ⟨hm2, hall2, -⟩ := foldl_pickWinner_max _ _ _ h2
        rcases hm1 with hm1 | hm1
        · rcases hm2 with hm2 | hm2
          · have hw'1 : w' ∈ batches.flatten.filter (fun e => e.num == k) :=
              hc.symm.subset hm2
            have hw2 : w ∈ batches'.flatten.filter (fun e => e.num == k) :=
              hc.subset hm1
            have hts : w.timestamp = w'.timestamp :=
              Nat.le_antisymm (hall2 w hw2) (hall1 w' hw'1)
            have hnum : w.num = w'.num := by
              have ha := (List.mem_filter.1 hm1).2
              have hb := (List.mem_filter.1 hw'1).2
              have ha' : w.num = k := by simpa using ha
              have hb' : w'.num = k := by simpa using hb
              rw [ha', hb']
            by_cases hw : w = w'
            · rw [hw]
            · exact absurd hts
                (hnt w (List.mem_filter.1 hm1).1 w' (List.mem_filter.1 hw'1).1 hnum hw)
          · cases hm2
        · cases hm1
  refine ⟨hfind, ?_⟩
  have hwf : WFB (stateOf batches) := WFB_stateOf batches
  have hwf' : WFB (stateOf batches') := WFB_stateOf batches'
  have hnd : (stateOf batches).Nodup := List.Nodup.of_map Prod.fst hwf.2
  have hnd' : (stateOf batches').Nodup := List.Nodup.of_map Prod.fst hwf'.2
  have hpairs : List.Perm (stateOf batches) (stateOf batches') := by
    rw [List.perm_ext_iff_of_nodup hnd hnd']
    intro p
    constructor
    · intro hp
      exact findBucket_some_mem _ _ _
        ((hfind p.1).symm ▸ findBucket_eq_some_of_mem _ _ _ hwf.2 hp)
    · intro hp
      exact findBucket_some_mem _ _ _
        ((hfind p.1) ▸ findBucket_eq_some_of_mem _ _ _ hwf'.2 hp)
  exact ((List.perm_insertionSort tsLe _).trans (hpairs.map Prod.snd)).trans
    (List.perm_insertionSort tsLe _).symm

theorem batchOrderIndependence_witness :
    findBucket (stateOf [[(⟨"a", 10, 0, 10, 1⟩ : Entry)],
                         [(⟨"b", 20, 0, 20, 2⟩ : Entry)]]) 1 =
      findBucket (stateOf [[(⟨"b", 20, 0, 20, 2⟩ : Entry)],
                           [(⟨"a", 10, 0, 10, 1⟩ : Entry)]]) 1 ∧
    List.Perm
      (build (stateOf [[(⟨"a", 10, 0, 10, 1⟩ : Entry)],
                       [(⟨"b", 20, 0, 20, 2⟩ : Entry)]]))
      (build (stateOf [[(⟨"b", 20, 0, 20, 2⟩ : Entry)],
                       [(⟨"a", 10, 0, 10, 1⟩ : Entry)]])) :=
  ⟨(batchOrderIndependence [[⟨"a", 10, 0, 10, 1⟩], [⟨"b", 20, 0, 20, 2⟩]]
      [[⟨"b", 20, 0, 20, 2⟩], [⟨"a", 10, 0, 10, 1⟩]] (by decide) (by decide)).1 1,
   (batchOrderIndependence [[⟨"a", 10, 0, 10, 1⟩], [⟨"b", 20, 0, 20, 2⟩]]
      [[⟨"b", 20, 0, 20, 2⟩], [⟨"a", 10, 0, 10, 1⟩]] (by decide) (by decide)).2⟩

/-! ### Parsing lemmas -/

theorem parseEntry_bad (o : JObj)
    (hbad : (o.created.isSome ∧ o.deleted.isSome) ∨
      (o.created = none ∧ o.deleted = none)) :
    ∃ err, parseEntry (JVal.obj o) = Except.error err := by
  rcases o with ⟨onum, otitle, ocr, odl⟩
  rcases hbad with ⟨h1, h2⟩ | ⟨h1, h2⟩
  · rcases Option.isSome_iff_exists.1 h1 with ⟨c, rfl⟩
    rcases Option.isSome_iff_exists.1 h2 with ⟨d, rfl⟩
    cases onum with
    | none => exact ⟨_, rfl⟩
    | some n =>
      cases otitle with
      | none => exact ⟨_, rfl⟩
      | some t => exact ⟨_, rfl⟩
  · cases h1
    cases h2
    cases onum with
    | none => exact ⟨_, rfl⟩
    | some n =>
      cases otitle with
      | none => exact ⟨_, rfl⟩
      | some t => exact ⟨_, rfl⟩

theorem parseElems_ok_all (elems : List JVal) (res : List Entry)
    (h : parseElems elems = Except.ok res) :
    ∀ v ∈ elems, ∃ e, parseEntry v = Except.ok e := by
  induction elems generalizing res with
  | nil => intro v hv; cases hv
  | cons v vs ih =>
    simp only [parseElems] at h
    cases hp : parseEntry v with
    | error e => rw [hp] at h; cases h
    | ok entry =>
      rw [hp] at h
      dsimp only at h
      cases hps : parseElems vs with
      | error e => rw [hps] at h; cases h
      | ok entries =>
        rw [hps] at h
        dsimp only at h
        intro u hu
        rcases List.mem_cons.1 hu with rfl | hu'
        · exact ⟨entry, hp⟩
        · exact ih entries hps u hu'

theorem parseEntry_error_ne_empty (v : JVal) (err : String)
    (h : parseEntry v = Except.error err) : err ≠ "" := by
  cases v with
  | nonObject =>
    cases h
    decide
  | obj o =>
    rcases o with ⟨onum, otitle, ocr, odl⟩
    cases onum with
    | none => cases h; decide
    | some n =>
      cases otitle with
      | none => cases h; decide
      | some t =>
        cases ocr with
        | some c =>
          cases odl with
          | some d => cases h; decide
          | none => cases h
        | none =>
          cases odl with
          | some d => cases h
          | none => cases h; decide

theorem parseElems_error_ne_empty (elems : List JVal) (err : String)
    (h : parseElems elems = Except.error err) : err ≠ "" := by
  induction elems generalizing err with
  | nil => cases h
  | cons v vs ih =>
    simp only [parseElems] at h
    cases hp : parseEntry v with
    | error e =>
      rw [hp] at h
      dsimp only at h
      cases h
      exact parseEntry_error_ne_empty v _ hp
    | ok entry =>
      rw [hp] at h
      dsimp only at h
      cases hps : parseElems vs with
      | error e =>
        rw [hps] at h
        dsimp only at h
        cases h
        exact ih _ hps
      | ok entries =>
        rw [hps] at h
        cases h

theorem parseElems_ok_spec (elems : List JVal) (res : List Entry)
    (h : parseElems elems = Except.ok res) :
    res.length = elems.length ∧
    ∀ i (hi : i < elems.length) (ho : i < res.length),
      parseEntry (elems.get ⟨i, hi⟩) = Except.ok (res.get ⟨i, ho⟩) := by
  induction elems generalizing res with
  | nil =>
    cases h
    exact ⟨rfl, fun i hi _ => absurd hi (Nat.not_lt_zero i)⟩
  | cons v vs ih =>
    simp only [parseElems] at h
    cases hp : parseEntry v with
    | error e => rw [hp] at h; cases h
    | ok entry =>
      rw [hp] at h
      dsimp only at h
      cases hps : parseElems vs with
      | error e => rw [hps] at h; cases h
      | ok entries =>
        rw [hps] at h
        dsimp only at h
        cases h
        obtain ⟨hlen, hidx⟩ := ih entries hps
        refine ⟨by simp [hlen], ?_⟩
        intro i hi ho
        cases i with
        | zero => exact hp
        | succ j =>
          exact hidx j (Nat.lt_of_succ_lt_succ hi) (Nat.lt_of_succ_lt_succ ho)

theorem loadAll_error_of_mem (sources : List JRoot) (r : JRoot) (e : String)
    (hr : tryParsingEntries r [] = (Except.error e, []))
    (hmem : r ∈ sources) :
    ∃ err, loadAll sources = Except.error err := by
  induction sources with
  | nil => cases hmem
  | cons s ss ih =>
    rcases List.mem_cons.1 hmem with rfl | hmem'
    · exact ⟨e, by simp only [loadAll]; rw [hr]⟩
    · simp only [loadAll]
      cases hs : tryParsingEntries s [] with
      | mk flag snd =>
        cases flag with
        | error e2 => exact ⟨e2, rfl⟩
        | ok u =>
          rcases ih hmem' with ⟨err, herr⟩
          exact ⟨err, by rw [herr]⟩

/-- C5: Validation rejection. If the root array contains a record-shaped
element with both `created` and `deleted` present, or with neither, then
`tryParsingEntries` fails with a nonempty error message and leaves the output
vector untouched, and a run of `main` that includes this source aborts at the
load stage, so no record of the source is ever fed to the `MergeBuilder`. -/
theorem validationRejection (elems : List JVal) (o : JObj) (out : List Entry)
    (hmem : JVal.obj o ∈ elems)
    (hbad : (o.created.isSome ∧ o.deleted.isSome) ∨
      (o.created = none ∧ o.deleted = none)) :
    (∃ err, tryParsingEntries (JRoot.arr elems) out = (Except.error err, out) ∧
      err ≠ "") ∧
    (∀ sources, JRoot.arr elems ∈ sources →
      ∃ err, loadAll sources = Except.error err) := by
  have hfail : ∀ res, parseElems elems ≠ Except.ok res := by
    intro res hok
    rcases parseElems_ok_all elems res hok (JVal.obj o) hmem with ⟨e, he⟩
    rcases parseEntry_bad o hbad with ⟨err, herr⟩
    rw [he] at herr
    cases herr
  cases hps : parseElems elems with
  | ok res => exact absurd hps (hfail res)
  | error e =>
    have hne : e ≠ "" := parseElems_error_ne_empty elems e hps
    have htp : ∀ out' : List Entry,
        tryParsingEntries (JRoot.arr elems) out' = (Except.error e, out') := by
      intro out'
      simp only [tryParsingEntries]
      rw [hps]
    refine ⟨⟨e, htp out, hne⟩, ?_⟩
    intro sources hsrc
    exact loadAll_error_of_mem sources _ e (htp []) hsrc

theorem validationRejection_witness :
    (∃ err, tryParsingEntries
        (JRoot.arr [JVal.obj ⟨some 1, some "x", some 1, some 2⟩]) [] =
      (Except.error err, []) ∧ err ≠ "") ∧
    (∀ sources, JRoot.arr [JVal.obj ⟨some 1, some "x", some 1, some 2⟩] ∈ sources →
      ∃ err, loadAll sources = Except.error err) :=
  validationRejection [JVal.obj ⟨some 1, some "x", some 1, some 2⟩]
    ⟨some 1, some "x", some 1, some 2⟩ [] (by decide) (by decide)

/-- C10: Parse atomicity. If `tryParsingEntries` fails, the output vector is
exactly what it was before the call; if it succeeds, the output holds exactly
the parsed entries, in input order. -/
theorem tryParsingEntriesAtomic (root : JRoot) (out : List Entry) :
    (∀ err, (tryParsingEntries root out).1 = Except.error err →
      (tryParsingEntries root out).2 = out) ∧
    ((tryParsingEntries root out).1 = Except.ok () →
      ∃ elems, root = JRoot.arr elems ∧
        (tryParsingEntries root out).2.length = elems.length ∧
        ∀ i (hi : i < elems.length) (ho : i < (tryParsingEntries root out).2.length),
          parseEntry (elems.get ⟨i, hi⟩) =
            Except.ok ((tryParsingEntries root out).2.get ⟨i, ho⟩)) := by
  cases root with
  | nonArray =>
    refine ⟨fun err _ => rfl, fun h => ?_⟩
    cases h
  | arr elems =>
    cases hps : parseElems elems with
    | error e =>
      have htp : tryParsingEntries (JRoot.arr elems) out = (Except.error e, out) := by
        simp only [tryParsingEntries]
        rw [hps]
      rw [htp]
      exact ⟨fun err _ => rfl, fun h => by cases h⟩
    | ok res =>
      have htp : tryParsingEntries (JRoot.arr elems) out = (Except.ok (), res) := by
        simp only [tryParsingEntries]
        rw [hps]
      rw [htp]
      refine ⟨fun err herr => (by cases herr), fun _ => ⟨elems, rfl, ?_⟩⟩
      exact parseElems_ok_spec elems res hps

theorem tryParsingEntriesAtomic_witness :
    (tryParsingEntries JRoot.nonArray [(⟨"a", 1, 0, 1, 1⟩ : Entry)]).2 =
      [(⟨"a", 1, 0, 1, 1⟩ : Entry)] ∧
    (∃ elems, JRoot.arr [JVal.obj ⟨some 2, some "b", none, some 5⟩] = JRoot.arr elems ∧
      (tryParsingEntries (JRoot.arr [JVal.obj ⟨some 2, some "b", none, some 5⟩]) []).2.length =
        elems.length ∧
      ∀ i (hi : i < elems.length)
        (ho : i < (tryParsingEntries
          (JRoot.arr [JVal.obj ⟨some 2, some "b", none, some 5⟩]) []).2.length),
        parseEntry (elems.get ⟨i, hi⟩) =
          Except.ok ((tryParsingEntries
            (JRoot.arr [JVal.obj ⟨some 2, some "b", none, some 5⟩]) []).2.get ⟨i, ho⟩)) :=
  ⟨(tryParsingEntriesAtomic JRoot.nonArray [⟨"a", 1, 0, 1, 1⟩]).1
      "The root JSON object is not an array" rfl,
   (tryParsingEntriesAtomic (JRoot.arr [JVal.obj ⟨some 2, some "b", none, some 5⟩]) []).2 rfl⟩

/-- C4 counterexample: the element with fields `num` 1, `title` "a" and
`created` 0 passes validation (exactly one timestamp field present), yet
`printEntries` renders it with *neither* `created` nor `deleted` — the C++
printer emits those fields only under the truthiness tests
`if( entry->created )` / `if( entry->deleted )`, which a zero timestamp
fails. This refutes "renders exactly one of created/deleted — whichever of
the two was originally set". -/
theorem printOmitsZeroTimestamp :
    (tryParsingEntries (JRoot.arr [JVal.obj ⟨some 1, some "a", some 0, none⟩]) []).1 =
      Except.ok () ∧
    printEntries (build (stateOf
        [(tryParsingEntries (JRoot.arr [JVal.obj ⟨some 1, some "a", some 0, none⟩]) []).2])) =
      [{ num := 1, title := "a", created := none, deleted := none }] :=
  ⟨rfl, rfl⟩

/-- C4 (amended): for every record produced by the parser, the printer
renders `num` and `title` verbatim and renders each of `created`/`deleted`
exactly when it is nonzero; consequently, whenever the record's orderingKey
is nonzero, exactly the originally set field is rendered (carrying the
orderingKey) and the other is omitted. The printer maps over its input list,
so its output order is exactly `build()`'s order. -/
theorem printEntriesSpec (o : JObj) (e : Entry)
    (hp : parseEntry (JVal.obj o) = Except.ok e) :
    (printEntry e).num = e.num ∧ (printEntry e).title = e.title ∧
    ((printEntry e).created = if e.created ≠ 0 then some e.created else none) ∧
    ((printEntry e).deleted = if e.deleted ≠ 0 then some e.deleted else none) ∧
    (e.timestamp ≠ 0 →
      (o.created.isSome →
        (printEntry e).created = some e.timestamp ∧ (printEntry e).deleted = none) ∧
      (o.deleted.isSome →
        (printEntry e).deleted = some e.timestamp ∧ (printEntry e).created = none)) ∧
    (∀ es : List Entry, printEntries es = es.map printEntry) := by
  rcases o with ⟨onum, otitle, ocr, odl⟩
  cases onum with
  | none => cases hp
  | some n =>
    cases otitle with
    | none => cases hp
    | some t =>
      cases ocr with
      | some c =>
        cases odl with
        | some d => cases hp
        | none =>
          cases hp
          refine ⟨rfl, rfl, rfl, rfl, ?_, fun es => rfl⟩
          intro hts
          have htc : c ≠ 0 := by simpa using hts
          refine ⟨fun _ => ?_, fun hd => by cases hd⟩
          constructor
          · show (if c ≠ 0 then some c else none) = some c
            rw [if_pos htc]
          · show (if (0 : Nat) ≠ 0 then some 0 else none) = none
            rw [if_neg (by simp)]
      | none =>
        cases odl with
        | none => cases hp
        | some d =>
          cases hp
          refine ⟨rfl, rfl, rfl, rfl, ?_, fun es => rfl⟩
          intro hts
          have htd : d ≠ 0 := by simpa using hts
          refine ⟨fun hc => (by cases hc), fun _ => ?_⟩
          constructor
          · show (if d ≠ 0 then some d else none) = some d
            rw [if_pos htd]
          · show (if (0 : Nat) ≠ 0 then some 0 else none) = none
            rw [if_neg (by simp)]

theorem printEntriesSpec_witness :
    (printEntry ⟨"a", 10, 0, 10, 1⟩).num = 1 ∧
    (printEntry ⟨"a", 10, 0, 10, 1⟩).created = some 10 ∧
    (printEntry ⟨"a", 10, 0, 10, 1⟩).deleted = none :=
  have h := printEntriesSpec ⟨some 1, some "a", some 10, none⟩ ⟨"a", 10, 0, 10, 1⟩ rfl
  ⟨h.1, ((h.2.2.2.2.1 (by decide)).1 (by decide)).1, ((h.2.2.2.2.1 (by decide)).1 (by decide)).2⟩

/-- C9: CLI argument check. With fewer than two filename arguments
(`argc < 3`), `main` prints the usage message to stderr and exits with
status 1 producing no stdout output; with enough arguments and all loads
succeeding, it prints the merged result to stdout and exits with status 0. -/
theorem mainCli (files : List JRoot) :
    (files.length < 2 →
      runMain files =
        { exitCode := 1, stdoutJson := none, stderrMsg := some usageMessage }) ∧
    (∀ lists, 2 ≤ files.length → loadAll files = Except.ok lists →
      runMain files =
        { exitCode := 0, stdoutJson := some (printEntries (build (stateOf lists)))
          stderrMsg := none }) := by
  constructor
  · intro h
    rw [runMain, if_pos h]
  · intro lists h2 hok
    rw [runMain, if_neg (Nat.not_lt.2 h2), hok]
    rfl

theorem mainCli_witness :
    runMain [] = { exitCode := 1, stdoutJson := none, stderrMsg := some usageMessage } ∧
    runMain [JRoot.arr [], JRoot.arr []] =
      { exitCode := 0, stdoutJson := some (printEntries (build (stateOf [[], []])))
        stderrMsg := none } :=
  ⟨(mainCli []).1 (by decide),
   (mainCli [JRoot.arr [], JRoot.arr []]).2 [[], []] (by decide) rfl⟩
